import Mathlib

/-!
Verification development for the typed-sled repository: a strongly typed
key-value layer over the sled byte-oriented storage engine.

The embedding below translates the Rust sources into Lean:
- serialize.rs   : the bincode serialization strategies (eager and lazy),
- lib.rs         : the crate-level (de)serialize helpers that panic on failure,
- key_generating.rs and custom_serde/key_generating.rs : the Counter key
  generator (an AtomicU64 advanced with fetch_add) and KeyGeneratingTree,
- transaction.rs : the multi-collection transaction composition macro,
- join.rs        : the foreign-key join combinator.

The sled engine itself is modelled as a byte-lexicographically sorted
association list from encoded keys to encoded values, matching the
BTreeMap-like contract sled documents.  bincode uses fixed-width
little-endian integer encoding and its legacy deserialize entry point
permits trailing bytes; both facts are reflected faithfully.  Machine
integers are modelled as Nat with explicit reduction modulo 2 ^ 64 where
the Rust code can wrap (AtomicU64.fetch_add wraps on overflow).
Panics are modelled as the error arm of Except (or as none), since a
panic never returns a value to the caller.
-/

/-- Raw engine-level byte strings: sled keys and values. -/
abbrev Bytes := List Nat

/-- Strict byte-lexicographic order on byte strings, the order sled keeps
its keys in: a proper prefix precedes its extensions, otherwise the first
differing byte decides. -/
def lexLt : Bytes → Bytes → Bool
  | [], [] => false
  | [], _ :: _ => true
  | _ :: _, [] => false
  | a :: as, b :: bs => if a < b then true else if b < a then false else lexLt as bs

/-- Engine-level collection contents: an association list from encoded key
to encoded value, kept sorted by `lexLt` on keys. -/
abbrev ByteMap := List (Bytes × Bytes)

/-- Lookup of an encoded key in a byte collection. -/
def mapGet : ByteMap → Bytes → Option Bytes
  | [], _ => none
  | (k0, v0) :: rest, k => if k0 = k then some v0 else mapGet rest k

/-- Insertion into a byte collection, keeping the `lexLt` key order and
replacing an equal key, as the sled BTreeMap contract prescribes. -/
def mapInsert : ByteMap → Bytes → Bytes → ByteMap
  | [], k, v => [(k, v)]
  | (k0, v0) :: rest, k, v =>
    if lexLt k k0 then (k, v) :: (k0, v0) :: rest
    else if k = k0 then (k, v) :: rest
    else (k0, v0) :: mapInsert rest k v

/-- Removal of an encoded key from a byte collection. -/
def mapRemove : ByteMap → Bytes → ByteMap
  | [], _ => []
  | (k0, v0) :: rest, k => if k0 = k then rest else (k0, v0) :: mapRemove rest k

/-- Well-formedness of an engine collection: keys strictly ascending in
byte-lexicographic order. -/
def StoreSorted (s : ByteMap) : Prop :=
  List.Pairwise (fun a b : Bytes × Bytes => lexLt a.1 b.1 = true) s

instance storeSortedDecidable (s : ByteMap) : Decidable (StoreSorted s) := by
  unfold StoreSorted
  infer_instance

/-- Little-endian base-256 digits of `x`, exactly `n` bytes, as bincode
writes fixed-width integers. -/
def leBytes : Nat → Nat → Bytes
  | 0, _ => []
  | n + 1, x => x % 256 :: leBytes n (x / 256)

/-- Value of a little-endian base-256 digit string, as bincode reads
fixed-width integers. -/
def leVal : Bytes → Nat
  | [] => 0
  | b :: bs => b + 256 * leVal bs

theorem leBytes_length (n x : Nat) : (leBytes n x).length = n := by
  induction n generalizing x with
  | zero => rfl
  | succ n ih => simp [leBytes, ih]

theorem leVal_leBytes (n x : Nat) (h : x < 256 ^ n) : leVal (leBytes n x) = x := by
  induction n generalizing x with
  | zero =>
    simp only [pow_zero, Nat.lt_one_iff] at h
    simp [h, leBytes, leVal]
  | succ n ih =>
    have hdiv : x / 256 < 256 ^ n := by
      rw [Nat.div_lt_iff_lt_mul (by norm_num)]
      calc x < 256 ^ (n + 1) := h
        _ = 256 ^ n * 256 := by ring
    simp only [leBytes, leVal, ih (x / 256) hdiv]
    omega

/-- The value-level stand-in for the Rust trait dictionary
`T : Serialize + DeserializeOwned` under bincode: the encoding of the type
and its fallible decoding (the none arm being a bincode error). -/
structure Codec (α : Type) where
  ser : α → Bytes
  de : Bytes → Option α

/-- bincode for u64: 8 little-endian bytes; decoding reads the first 8
bytes and permits trailing bytes, failing only when fewer than 8 bytes are
available (legacy bincode deserialize semantics). -/
def codecU64 : Codec Nat where
  ser x := leBytes 8 x
  de bs := if 8 ≤ bs.length then some (leVal (bs.take 8)) else none

/-- bincode for u32: 4 little-endian bytes, trailing bytes permitted. -/
def codecU32 : Codec Nat where
  ser x := leBytes 4 x
  de bs := if 4 ≤ bs.length then some (leVal (bs.take 4)) else none

/-- bincode for a byte sequence (Vec of u8 or a UTF-8 string): a u64
length prefixed to the raw bytes; decoding reads the length, then that
many bytes, failing when the buffer is too short. -/
def codecBytes : Codec Bytes where
  ser bs := leBytes 8 bs.length ++ bs
  de bs :=
    if 8 ≤ bs.length then
      let len := leVal (bs.take 8)
      let rest := bs.drop 8
      if len ≤ rest.length then some (rest.take len) else none
    else none

theorem codecU64_roundtrip (x : Nat) (h : x < 2 ^ 64) : codecU64.de (codecU64.ser x) = some x := by
  have h256 : x < 256 ^ 8 := by norm_num at h ⊢; omega
  simp [codecU64, leBytes_length, List.take_of_length_le, leVal_leBytes 8 x h256]

theorem codecU32_roundtrip (x : Nat) (h : x < 2 ^ 32) : codecU32.de (codecU32.ser x) = some x := by
  have h256 : x < 256 ^ 4 := by norm_num at h ⊢; omega
  simp [codecU32, leBytes_length, List.take_of_length_le, leVal_leBytes 4 x h256]

theorem codecBytes_roundtrip (bs : Bytes) (h : bs.length < 2 ^ 64) :
    codecBytes.de (codecBytes.ser bs) = some bs := by
  have h256 : bs.length < 256 ^ 8 := by norm_num at h ⊢; omega
  simp [codecBytes, leBytes_length, List.take_append_of_le_length,
    List.take_of_length_le, List.drop_append_of_le_length,
    leVal_leBytes 8 bs.length h256]

/-- Embeds `BincodeSerializer` from src/custom_serde/serialize.rs: all four
strategies serialize keys and values through bincode. -/
def BincodeSerializer.serialize (c : Codec α) (x : α) : Bytes :=
  c.ser x

/-- Embeds `BincodeDeserializer` from src/custom_serde/serialize.rs: eager
bincode decoding; the source panics via expect on a bincode error, modelled
as the none arm. -/
def BincodeDeserializer.deserialize (c : Codec α) (bs : Bytes) : Option α :=
  c.de bs

/-- Embeds `Lazy` from src/custom_serde/serialize.rs: an owned raw byte
buffer (a sled IVec) plus a compile-time type witness, holding no decoded
instance. -/
structure Lazy (α : Type) where
  v : Bytes

/-- Embeds `BincodeDeserializerLazy::deserialize`: wraps the raw bytes in a
Lazy handle without decoding (Lazy::new). -/
def BincodeDeserializerLazy.deserialize (α : Type) (bs : Bytes) : Lazy α :=
  ⟨bs⟩

/-- Embeds `Lazy::deserialize`: decodes the wrapped bytes via bincode on
demand; the source panics via expect on a bincode error, modelled as the
none arm. -/
def Lazy.deserialize (c : Codec α) (l : Lazy α) : Option α :=
  c.de l.v

/-- Embeds `impl SerDe for BincodeSerDe` (eager strategy): key decoding
side, the eager bincode deserializer. -/
def BincodeSerDe.DK (c : Codec α) : Bytes → Option α :=
  BincodeDeserializer.deserialize c

/-- Eager strategy, value decoding side. -/
def BincodeSerDe.DV (c : Codec α) : Bytes → Option α :=
  BincodeDeserializer.deserialize c

/-- Eager strategy, key serializing side. -/
def BincodeSerDe.SK (c : Codec α) : α → Bytes :=
  BincodeSerializer.serialize c

/-- Eager strategy, value serializing side. -/
def BincodeSerDe.SV (c : Codec α) : α → Bytes :=
  BincodeSerializer.serialize c

/-- Embeds `impl SerDe for BincodeSerDeLazy` (fully lazy strategy): key
decoding side, the lazy deserializer. -/
def BincodeSerDeLazy.DK (α : Type) : Bytes → Lazy α :=
  BincodeDeserializerLazy.deserialize α

/-- Fully lazy strategy, value decoding side. -/
def BincodeSerDeLazy.DV (α : Type) : Bytes → Lazy α :=
  BincodeDeserializerLazy.deserialize α

/-- Fully lazy strategy, key serializing side. -/
def BincodeSerDeLazy.SK (c : Codec α) : α → Bytes :=
  BincodeSerializer.serialize c

/-- Fully lazy strategy, value serializing side. -/
def BincodeSerDeLazy.SV (c : Codec α) : α → Bytes :=
  BincodeSerializer.serialize c

/-- Embeds `impl SerDe for BincodeSerDeLazyK` (lazy key, eager value). -/
def BincodeSerDeLazyK.DK (α : Type) : Bytes → Lazy α :=
  BincodeDeserializerLazy.deserialize α

/-- Lazy-key strategy, value decoding side (eager). -/
def BincodeSerDeLazyK.DV (c : Codec α) : Bytes → Option α :=
  BincodeDeserializer.deserialize c

/-- Lazy-key strategy, key serializing side. -/
def BincodeSerDeLazyK.SK (c : Codec α) : α → Bytes :=
  BincodeSerializer.serialize c

/-- Embeds `impl SerDe for BincodeSerDeLazyV` (eager key, lazy value): key
decoding side (eager). -/
def BincodeSerDeLazyV.DK (c : Codec α) : Bytes → Option α :=
  BincodeDeserializer.deserialize c

/-- Lazy-value strategy, value decoding side (lazy). -/
def BincodeSerDeLazyV.DV (α : Type) : Bytes → Lazy α :=
  BincodeDeserializerLazy.deserialize α

/-- Lazy-value strategy, value serializing side. -/
def BincodeSerDeLazyV.SV (c : Codec α) : α → Bytes :=
  BincodeSerializer.serialize c

/-- Embeds `impl Serializer of Lazy for BincodeSerDeLazy` from
src/custom_serde/serialize.rs lines 155-162: serializing a Lazy value
copies out exactly the wrapped bytes (value.v.to_vec). -/
def BincodeSerDeLazy.serializeLazy (l : Lazy α) : Bytes :=
  l.v

/-- Embeds `impl Serializer of Lazy for BincodeSerDeLazyK` (lines 163-170). -/
def BincodeSerDeLazyK.serializeLazy (l : Lazy α) : Bytes :=
  l.v

/-- Embeds `impl Serializer of Lazy for BincodeSerDeLazyV` (lines 171-178). -/
def BincodeSerDeLazyV.serializeLazy (l : Lazy α) : Bytes :=
  l.v

/-- Embeds `deserialize` from src/lib.rs lines 199-205: bincode decoding
whose failure calls expect, aborting the process with a diagnostic; the
abort is the error arm, since a panic never returns a value and never
surfaces as a recoverable result. -/
def TypedSled.deserialize (c : Codec α) (bs : Bytes) : Except Unit α :=
  match c.de bs with
  | some x => Except.ok x
  | none => Except.error ()

/-- Embeds `serialize` from src/lib.rs lines 207-213. -/
def TypedSled.serialize (c : Codec α) (x : α) : Bytes :=
  c.ser x

/-- Modelled from the spec: the typed Collection method `get` of the
custom_serde Tree, whose module file is not under src/ (only its callers
are).  Per spec section 4.2, get encodes the key via the Strategy,
performs the engine lookup and decodes the found bytes, following the
byte-call pattern visible in the TransactionalTree methods of
src/transaction.rs. -/
def TypedSled.Tree.get (cK : Codec K) (cV : Codec V) (s : ByteMap) (k : K) : Option V :=
  (mapGet s (cK.ser k)).bind cV.de

/-- Modelled from the spec: the typed Collection method `insert` of the
custom_serde Tree (module file missing from src/): encodes both sides,
performs an unconditional engine set and returns the prior decoded value
if present, per spec section 4.2. -/
def TypedSled.Tree.insert (cK : Codec K) (cV : Codec V) (s : ByteMap) (k : K) (v : V) :
    Option V × ByteMap :=
  ((mapGet s (cK.ser k)).bind cV.de, mapInsert s (cK.ser k) (cV.ser v))

/-- Embeds `CompareAndSwapError` re-exported in src/lib.rs line 78: the
distinguished mismatch result carrying the actual current value and the
rejected proposed value. -/
structure CompareAndSwapError (V : Type) where
  current : Option V
  proposed : Option V
deriving DecidableEq

/-- Modelled from the spec: the typed Collection method `compare_and_swap`
of the custom_serde Tree (module file missing from src/): on byte-level
match of the encoded expected value it applies the proposal and returns
success; on mismatch it returns the distinguished error carrying the
decoded current value and the proposed value, leaving the store unchanged
(spec sections 4.2 and 7). -/
def TypedSled.Tree.compare_and_swap (cK : Codec K) (cV : Codec V) (s : ByteMap) (k : K)
    (old new : Option V) : Except (CompareAndSwapError V) Unit × ByteMap :=
  let cur := mapGet s (cK.ser k)
  if cur = old.map cV.ser then
    (Except.ok (),
      match new with
      | some nv => mapInsert s (cK.ser k) (cV.ser nv)
      | none => mapRemove s (cK.ser k))
  else
    (Except.error ⟨cur.bind cV.de, new⟩, s)

/-- Modelled from the spec: the byte-level selection underlying the typed
Collection method `range` of the custom_serde Tree (module file missing
from src/): the engine keeps entries ordered by encoded byte order and
yields those at or after the encoded start and strictly before the
encoded end (spec section 4.2). -/
def TypedSled.Tree.rangeBytes (cK : Codec K) (s : ByteMap) (lo hi : K) : ByteMap :=
  s.filter (fun p => !lexLt p.1 (cK.ser lo) && lexLt p.1 (cK.ser hi))

/-- Modelled from the spec: the typed Collection method `range` of the
custom_serde Tree (module file missing from src/): decodes each selected
pair; a decode failure is a panic, modelled as the none arm of the entry. -/
def TypedSled.Tree.range (cK : Codec K) (cV : Codec V) (s : ByteMap) (lo hi : K) :
    List (Option (K × V)) :=
  (TypedSled.Tree.rangeBytes cK s lo hi).map
    (fun p => (cK.de p.1).bind (fun k => (cV.de p.2).map (fun v => (k, v))))

/-- Modelled from the spec: the typed Collection method `last_key` of the
custom_serde Tree (module file missing from src/), used by
Counter::initialize: a boundary lookup in encoded order (spec section
4.2), decoding the key of the byte-order-maximal entry. -/
def TypedSled.Tree.last_key (cK : Codec K) (s : ByteMap) : Option K :=
  s.getLast?.bind (fun p => cK.de p.1)

/-- The u64 wraparound bound of the AtomicU64 counter, 2 ^ 64 as a
literal. -/
def U64LIMIT : Nat := 18446744073709551616

/-- Embeds `AtomicU64::fetch_add(1, Ordering::Relaxed)` as used by
Counter::next_key in src/key_generating.rs line 67 and
src/custom_serde/key_generating.rs line 224: returns the previous value
and stores the incremented value, wrapping around on overflow. -/
def fetch_add_one (c : Nat) : Nat × Nat :=
  (c % U64LIMIT, (c + 1) % U64LIMIT)

/-- Embeds `Counter::next_key`: one fetch_add, returning the drawn key and
the advanced counter state. -/
def Counter.next_key (c : Nat) : Nat × Nat :=
  fetch_add_one c

/-- Embeds `Counter::initialize` from src/custom_serde/key_generating.rs
lines 212-221 (and its twin in src/key_generating.rs lines 55-64): reads
the last key of the tree and seeds the counter with key + 1, or 0 when the
tree is empty.  The u64 increment is taken modulo 2 ^ 64 (release-mode
wrapping). -/
def Counter.initCounter (s : ByteMap) : Nat :=
  match TypedSled.Tree.last_key codecU64 s with
  | some k => (k + 1) % U64LIMIT
  | none => 0

/-- Counter state after `n` next_key calls starting from state `c`. -/
def Counter.stateAfter (c : Nat) : Nat → Nat
  | 0 => c
  | n + 1 => (fetch_add_one (Counter.stateAfter c n)).2

/-- The key returned by the `n`-th (0-based) next_key call starting from
counter state `c`. -/
def Counter.keyAt (c n : Nat) : Nat :=
  (fetch_add_one (Counter.stateAfter c n)).1

/-- Embeds `KeyGeneratingTree::insert` from
src/custom_serde/key_generating.rs lines 85-89: draws the key from the
generator first, then performs the typed insert on the inner tree, and
maps the engine result to pair it with the drawn key.  The engine outcome
is a parameter: `engineFail` true models an engine I/O error, which leaves
the byte collection unchanged; res.map threads that error through, so the
drawn key is not reported on failure while the counter stays advanced. -/
def KeyGeneratingTree.insert (cV : Codec V) (engineFail : Bool) (c : Nat) (s : ByteMap) (v : V) :
    Except Unit (Nat × Option V) × (Nat × ByteMap) :=
  let key := (Counter.next_key c).1
  let c2 := (Counter.next_key c).2
  if engineFail then
    (Except.error (), (c2, s))
  else
    (Except.ok (key, (mapGet s (codecU64.ser key)).bind cV.de),
      (c2, mapInsert s (codecU64.ser key) (cV.ser v)))

/-- Embeds `CounterTree::open`: opens the inner tree and initializes the
Counter from its contents (src/custom_serde/key_generating.rs lines
74-82). -/
def CounterTree.openCounter (s : ByteMap) : Nat :=
  Counter.initCounter s

/-- Embeds `CounterTree::insert` on the success path of the engine. -/
def CounterTree.insert (cV : Codec V) (c : Nat) (s : ByteMap) (v : V) :
    Except Unit (Nat × Option V) × (Nat × ByteMap) :=
  KeyGeneratingTree.insert cV false c s v

/-- Embeds `CounterTree::get`, the typed get with u64 keys. -/
def CounterTree.get (cV : Codec V) (s : ByteMap) (k : Nat) : Option V :=
  TypedSled.Tree.get codecU64 cV s k

/-- The compile-time shape of one collection in a heterogeneous
transaction tuple: its key and value types. -/
structure Sig : Type 1 where
  K : Type
  V : Type

/-- Modelled from the spec: the typed Collection of the custom_serde
module (module file missing from src/) as it enters transaction
composition: a name identifying the engine-managed byte collection within
the shared store handle, plus the Strategy dictionaries for its key and
value types (spec section 3). -/
structure TypedTree (σ : Sig) where
  name : Nat
  cK : Codec σ.K
  cV : Codec σ.V

/-- The shared engine store: each named collection holds one byte map. -/
abbrev EngineStore := List (Nat × ByteMap)

/-- Contents of a named engine collection (empty when never written). -/
def engineGetTree : EngineStore → Nat → ByteMap
  | [], _ => []
  | (n0, m0) :: rest, n => if n0 = n then m0 else engineGetTree rest n

/-- Replacement of a named engine collection. -/
def engineSetTree : EngineStore → Nat → ByteMap → EngineStore
  | [], n, m => [(n, m)]
  | (n0, m0) :: rest, n, m =>
    if n0 = n then (n, m) :: rest else (n0, m0) :: engineSetTree rest n m

/-- One transaction attempt body: state passing over the engine store,
with the error arm modelling an unabortable engine failure. -/
abbrev TxM (α : Type) := EngineStore → Except Unit (α × EngineStore)

/-- Embeds `TransactionalTree` from src/transaction.rs lines 9-14: an
engine-level transactional handle (here the collection name it addresses)
plus the phantom type and Strategy witnesses, carried as the codec pair. -/
structure TypedView (σ : Sig) where
  handle : Nat
  cK : Codec σ.K
  cV : Codec σ.V

/-- Embeds `TransactionalTree::insert` from src/transaction.rs lines
26-43: serialize both sides, engine insert, decode the previous value. -/
def TypedView.insert (tv : TypedView σ) (k : σ.K) (v : σ.V) : TxM (Option σ.V) :=
  fun s =>
    let m := engineGetTree s tv.handle
    Except.ok ((mapGet m (tv.cK.ser k)).bind tv.cV.de,
      engineSetTree s tv.handle (mapInsert m (tv.cK.ser k) (tv.cV.ser v)))

/-- Embeds `TransactionalTree::get` from src/transaction.rs lines 63-79. -/
def TypedView.get (tv : TypedView σ) (k : σ.K) : TxM (Option σ.V) :=
  fun s =>
    Except.ok ((mapGet (engineGetTree s tv.handle) (tv.cK.ser k)).bind tv.cV.de, s)

/-- Embeds `TransactionalTree::remove` from src/transaction.rs lines
45-61. -/
def TypedView.remove (tv : TypedView σ) (k : σ.K) : TxM (Option σ.V) :=
  fun s =>
    let m := engineGetTree s tv.handle
    Except.ok ((mapGet m (tv.cK.ser k)).bind tv.cV.de,
      engineSetTree s tv.handle (mapRemove m (tv.cK.ser k)))

/-- Embeds `View::view` (src/transaction.rs lines 130-140 together with
the per-tree impls): reconstructs the typed view by pairing the engine
handle with the originating typed collection, taking the type and
Strategy witnesses from the latter. -/
def viewOf (t : TypedTree σ) (handle : Nat) : TypedView σ :=
  ⟨handle, t.cK, t.cV⟩

/-- Embeds the `impl_transactional!` macro of src/transaction.rs lines
142-176, instantiated there for tuple arities 1 through 10: the
heterogeneous tuple of collections is a Fin n indexed family; the engine
transaction is handed the inner engine trees in tuple order and calls the
closure back with the per-collection engine handles in that same order;
the closure argument is rebuilt by pairing handle i with originating
collection i via View::view, preserving order and arity.  A successful
body commits its store; an engine error leaves the store unchanged. -/
def transactionTuple (n : Nat) (sigs : Fin n → Sig) (trees : (i : Fin n) → TypedTree (sigs i))
    (f : ((i : Fin n) → TypedView (sigs i)) → TxM α) : EngineStore → Except Unit α × EngineStore :=
  fun s =>
    match f (fun i => viewOf (trees i) ((trees i).name)) s with
    | Except.ok (a, s2) => (Except.ok a, s2)
    | Except.error e => (Except.error e, s)

/-- Embeds the destination-resolution loop of `JoinTree::get` from
src/join.rs lines 98-103: resolve each extracted destination key via the
destination get, pushing hits in extraction order and silently skipping
keys absent from the destination. -/
def joinResolve (cKd : Codec DK) (cVd : Codec DV) (dest : ByteMap) : List DK → List (DK × DV)
  | [] => []
  | dk :: rest =>
    match (mapGet dest (cKd.ser dk)).bind cVd.de with
    | some dv => (dk, dv) :: joinResolve cKd cVd dest rest
    | none => joinResolve cKd cVd dest rest

/-- Embeds `JoinTree::get` from src/join.rs lines 79-108: look the key up
in the source collection; when absent return nothing, otherwise return the
source value paired with the resolved destination pairs.  The extraction
of destination keys from a source value (the JoinKeys capability of
src/join.rs lines 9-24) is the `extract` parameter. -/
def JoinTree.get (cKs : Codec K) (cVs : Codec V) (cKd : Codec DK) (cVd : Codec DV)
    (src dest : ByteMap) (extract : V → List DK) (k : K) : Option (V × List (DK × DV)) :=
  match (mapGet src (cKs.ser k)).bind cVs.de with
  | some v => some (v, joinResolve cKd cVd dest (extract v))
  | none => none
theorem lexLt_irrefl (a : Bytes) : lexLt a a = false := by
  induction a with
  | nil => rfl
  | cons x xs ih => simp [lexLt, ih]

theorem mapGet_mapInsert_self (s : ByteMap) (k v : Bytes) :
    mapGet (mapInsert s k v) k = some v := by
  induction s with
  | nil => simp [mapInsert, mapGet]
  | cons hd tl ih =>
    obtain ⟨k0, v0⟩ := hd
    by_cases h1 : lexLt k k0 = true
    · simp [mapInsert, h1, mapGet]
    · by_cases h2 : k = k0
      · subst h2
        simp [mapInsert, lexLt_irrefl, mapGet]
      · have h3 : ¬ k0 = k := fun h => h2 h.symm
        simp [mapInsert, h1, h2, mapGet, h3, ih]

theorem engineGetTree_engineSetTree_ne (s : EngineStore) (n n2 : Nat) (m : ByteMap)
    (h : n2 ≠ n) : engineGetTree (engineSetTree s n m) n2 = engineGetTree s n2 := by
  have hne : ¬ n = n2 := fun hh => h hh.symm
  induction s with
  | nil => simp [engineSetTree, engineGetTree, hne]
  | cons hd tl ih =>
    obtain ⟨n0, m0⟩ := hd
    by_cases h0 : n0 = n
    · subst h0
      simp [engineSetTree, engineGetTree, hne]
    · simp [engineSetTree, engineGetTree, h0, ih]

theorem Counter.stateAfter_eq (c : Nat) (hc : c < U64LIMIT) (n : Nat) :
    Counter.stateAfter c n = (c + n) % U64LIMIT := by
  induction n with
  | zero =>
    simp [Counter.stateAfter, Nat.mod_eq_of_lt hc]
  | succ n ih =>
    show (fetch_add_one (Counter.stateAfter c n)).2 = (c + (n + 1)) % U64LIMIT
    rw [ih]
    simp only [fetch_add_one, U64LIMIT]
    omega

theorem Counter.keyAt_eq (c n : Nat) (h : c + n < U64LIMIT) : Counter.keyAt c n = c + n := by
  have hc : c < U64LIMIT := by omega
  show (fetch_add_one (Counter.stateAfter c n)).1 = c + n
  rw [Counter.stateAfter_eq c hc n]
  simp only [fetch_add_one]
  simp only [U64LIMIT] at h ⊢
  omega

theorem codecU32_ser_inj (a b : Nat) (ha : a < 2 ^ 32) (hb : b < 2 ^ 32)
    (h : codecU32.ser a = codecU32.ser b) : a = b := by
  have h1 := codecU32_roundtrip a ha
  rw [h, codecU32_roundtrip b hb] at h1
  exact ((Option.some.injEq b a).mp h1).symm

theorem codecU64_ser_small (k : Nat) (hk : k < 256) :
    codecU64.ser k = [k, 0, 0, 0, 0, 0, 0, 0] := by
  simp [codecU64, leBytes, Nat.mod_eq_of_lt hk, Nat.div_eq_of_lt hk]

theorem lexLt_ser_small (a b : Nat) (ha : a < 256) (hb : b < 256) :
    (lexLt (codecU64.ser a) (codecU64.ser b) = true) ↔ a < b := by
  rw [codecU64_ser_small a ha, codecU64_ser_small b hb]
  rcases Nat.lt_trichotomy a b with h | h | h
  · simp [lexLt, h]
  · subst h
    simp [lexLt]
  · simp [lexLt, h, Nat.lt_asymm h, Nat.lt_irrefl]

theorem getLast?_mem_of_eq_some (l : List α) (b : α) (h : l.getLast? = some b) : b ∈ l := by
  induction l with
  | nil => cases h
  | cons x rest ih =>
    cases rest with
    | nil =>
      simp only [List.getLast?_singleton, Option.some.injEq] at h
      simp [h]
    | cons y rest2 =>
      rw [List.getLast?_cons_cons] at h
      exact List.mem_cons_of_mem x (ih h)

theorem pairwise_mem_getLast (R : α → α → Prop) (s : List α) (a : α)
    (hp : s.Pairwise R) (ha : a ∈ s) :
    ∃ b, s.getLast? = some b ∧ (a = b ∨ R a b) := by
  induction s with
  | nil => cases ha
  | cons x rest ih =>
    rw [List.pairwise_cons] at hp
    cases rest with
    | nil =>
      refine ⟨x, rfl, Or.inl ?_⟩
      simpa using ha
    | cons y rest2 =>
      rcases List.mem_cons.mp ha with hax | hamem
      · subst hax
        obtain ⟨b, hb⟩ : ∃ b, (y :: rest2).getLast? = some b :=
          ⟨(y :: rest2).getLast (List.cons_ne_nil y rest2),
            List.getLast?_eq_getLast_of_ne_nil (List.cons_ne_nil y rest2)⟩
        refine ⟨b, ?_, Or.inr (hp.1 b (getLast?_mem_of_eq_some (y :: rest2) b hb))⟩
        rw [List.getLast?_cons_cons]
        exact hb
      · obtain ⟨b, hb, hab⟩ := ih hp.2 hamem
        refine ⟨b, ?_, hab⟩
        rw [List.getLast?_cons_cons]
        exact hb

/-- The per-key resolution step of the join: the destination hit for one
extracted key, if any. -/
def joinHit (cKd : Codec DK) (cVd : Codec DV) (dest : ByteMap) (dk : DK) : Option (DK × DV) :=
  ((mapGet dest (cKd.ser dk)).bind cVd.de).map (fun dv => (dk, dv))

theorem joinResolve_eq_filterMap (cKd : Codec DK) (cVd : Codec DV) (dest : ByteMap)
    (ks : List DK) :
    joinResolve cKd cVd dest ks = ks.filterMap (joinHit cKd cVd dest) := by
  induction ks with
  | nil => rfl
  | cons dk rest ih =>
    rw [List.filterMap_cons]
    cases h : (mapGet dest (cKd.ser dk)).bind cVd.de with
    | none =>
      have hj : joinHit cKd cVd dest dk = none := by simp [joinHit, h]
      simp [joinResolve, h, hj, ih]
    | some dv =>
      have hj : joinHit cKd cVd dest dk = some (dk, dv) := by simp [joinHit, h]
      simp [joinResolve, h, hj, ih]

/-- C1: for every supported serialization Strategy (eager bincode, fully
lazy, lazy-key-only, lazy-value-only) and every key or value x of a
supported representative type (u64, u32, byte sequences), decoding the
bytes produced by encoding x yields x back; for the lazy strategies,
calling deserialize on the returned Lazy handle yields x. -/
theorem serde_roundtrip :
    (∀ x : Nat, x < 2 ^ 64 →
      BincodeSerDe.DK codecU64 (BincodeSerDe.SK codecU64 x) = some x ∧
      BincodeSerDe.DV codecU64 (BincodeSerDe.SV codecU64 x) = some x ∧
      Lazy.deserialize codecU64 (BincodeSerDeLazy.DK Nat (BincodeSerDeLazy.SK codecU64 x)) = some x ∧
      Lazy.deserialize codecU64 (BincodeSerDeLazy.DV Nat (BincodeSerDeLazy.SV codecU64 x)) = some x ∧
      Lazy.deserialize codecU64 (BincodeSerDeLazyK.DK Nat (BincodeSerDeLazyK.SK codecU64 x)) = some x ∧
      BincodeSerDeLazyK.DV codecU64 (BincodeSerializer.serialize codecU64 x) = some x ∧
      BincodeSerDeLazyV.DK codecU64 (BincodeSerializer.serialize codecU64 x) = some x ∧
      Lazy.deserialize codecU64 (BincodeSerDeLazyV.DV Nat (BincodeSerDeLazyV.SV codecU64 x)) = some x) ∧
    (∀ x : Nat, x < 2 ^ 32 →
      BincodeSerDe.DK codecU32 (BincodeSerDe.SK codecU32 x) = some x ∧
      Lazy.deserialize codecU32 (BincodeSerDeLazy.DK Nat (BincodeSerDeLazy.SK codecU32 x)) = some x) ∧
    (∀ bs : Bytes, bs.length < 2 ^ 64 →
      BincodeSerDe.DV codecBytes (BincodeSerDe.SV codecBytes bs) = some bs ∧
      Lazy.deserialize codecBytes (BincodeSerDeLazyV.DV Bytes (BincodeSerDeLazyV.SV codecBytes bs)) = some bs) := by
  refine ⟨fun x h => ?_, fun x h => ?_, fun bs h => ?_⟩
  · have hr := codecU64_roundtrip x h
    simp_all [BincodeSerDe.DK, BincodeSerDe.DV, BincodeSerDe.SK, BincodeSerDe.SV,
      BincodeSerDeLazy.DK, BincodeSerDeLazy.DV, BincodeSerDeLazy.SK, BincodeSerDeLazy.SV,
      BincodeSerDeLazyK.DK, BincodeSerDeLazyK.DV, BincodeSerDeLazyK.SK,
      BincodeSerDeLazyV.DK, BincodeSerDeLazyV.DV, BincodeSerDeLazyV.SV,
      BincodeSerializer.serialize, BincodeDeserializer.deserialize,
      BincodeDeserializerLazy.deserialize, Lazy.deserialize]
  · have hr := codecU32_roundtrip x h
    simp_all [BincodeSerDe.DK, BincodeSerDe.SK, BincodeSerDeLazy.DK, BincodeSerDeLazy.SK,
      BincodeSerializer.serialize, BincodeDeserializer.deserialize,
      BincodeDeserializerLazy.deserialize, Lazy.deserialize]
  · have hr := codecBytes_roundtrip bs h
    simp_all [BincodeSerDe.DV, BincodeSerDe.SV, BincodeSerDeLazyV.DV, BincodeSerDeLazyV.SV,
      BincodeSerializer.serialize, BincodeDeserializer.deserialize,
      BincodeDeserializerLazy.deserialize, Lazy.deserialize]

/-- Witness for C1, at concrete inputs of each representative type. -/
theorem serde_roundtrip_witness :
    BincodeSerDe.DK codecU64 (BincodeSerDe.SK codecU64 123456789) = some 123456789 ∧
    Lazy.deserialize codecU64 (BincodeSerDeLazy.DK Nat (BincodeSerDeLazy.SK codecU64 123456789)) =
      some 123456789 ∧
    BincodeSerDe.DK codecU32 (BincodeSerDe.SK codecU32 77) = some 77 ∧
    BincodeSerDe.DV codecBytes (BincodeSerDe.SV codecBytes [1, 2, 3]) = some [1, 2, 3] :=
  ⟨(serde_roundtrip.1 123456789 (by norm_num)).1,
   (serde_roundtrip.1 123456789 (by norm_num)).2.2.1,
   (serde_roundtrip.2.1 77 (by norm_num)).1,
   (serde_roundtrip.2.2 [1, 2, 3] (by norm_num)).1⟩

/-- C10: serializing a Lazy value under each of the three lazy strategies
returns exactly the raw byte buffer it wraps, byte for byte, without
decoding or re-encoding; composed with the lazy deserializer this means
writing back a lazily fetched value stores the original bytes unchanged. -/
theorem lazy_serialize_identity :
    (∀ (α : Type) (l : Lazy α),
      BincodeSerDeLazy.serializeLazy l = l.v ∧
      BincodeSerDeLazyK.serializeLazy l = l.v ∧
      BincodeSerDeLazyV.serializeLazy l = l.v) ∧
    (∀ (α : Type) (bs : Bytes),
      BincodeSerDeLazy.serializeLazy (BincodeDeserializerLazy.deserialize α bs) = bs ∧
      BincodeSerDeLazyK.serializeLazy (BincodeDeserializerLazy.deserialize α bs) = bs ∧
      BincodeSerDeLazyV.serializeLazy (BincodeDeserializerLazy.deserialize α bs) = bs) :=
  ⟨fun _ _ => ⟨rfl, rfl, rfl⟩, fun _ _ => ⟨rfl, rfl, rfl⟩⟩

/-- C7 counterexample: the nine-byte buffer of zeros is not the bincode
encoding of any u64 (every u64 encodes to exactly eight bytes, as the
length comparison with the encoding of the returned value shows), yet the
decode path returns the value 0 reconstructed from the first eight bytes
instead of aborting, because bincode's legacy deserialize permits
trailing bytes. -/
theorem decode_invalid_counterexample :
    TypedSled.deserialize codecU64 [0, 0, 0, 0, 0, 0, 0, 0, 0] = Except.ok 0 ∧
    codecU64.ser 0 ≠ [0, 0, 0, 0, 0, 0, 0, 0, 0] ∧
    ([0, 0, 0, 0, 0, 0, 0, 0, 0] : Bytes).length ≠ (codecU64.ser 0).length :=
  ⟨rfl, by decide, by decide⟩

/-- C7 (amended): decoding aborts with a diagnostic exactly when the
bincode decoder itself fails - for u64, when fewer than eight bytes are
present - and the abort is a panic, never a recoverable error result;
buffers of eight or more bytes decode from their first eight bytes even
when they are not the encoding of any value, since bincode's legacy
deserialize permits trailing bytes. -/
theorem decode_abort_amended (bs : Bytes) :
    (bs.length < 8 → TypedSled.deserialize codecU64 bs = Except.error ()) ∧
    (8 ≤ bs.length → TypedSled.deserialize codecU64 bs = Except.ok (leVal (bs.take 8))) := by
  constructor
  · intro h
    simp [TypedSled.deserialize, codecU64, Nat.not_le.mpr h]
  · intro h
    simp [TypedSled.deserialize, codecU64, h]

/-- Witness for the amended C7, at a three-byte and a nine-byte buffer. -/
theorem decode_abort_amended_witness :
    TypedSled.deserialize codecU64 [1, 2, 3] = Except.error () ∧
    TypedSled.deserialize codecU64 [0, 0, 0, 0, 0, 0, 0, 0, 0] = Except.ok 0 :=
  ⟨(decode_abort_amended [1, 2, 3]).1 (by decide),
   ((decode_abort_amended [0, 0, 0, 0, 0, 0, 0, 0, 0]).2 (by decide)).trans rfl⟩

/-- C8 counterexample: at counter state 2 ^ 64 - 1 (reachable by seeding
from a stored key 2 ^ 64 - 2), the next two successive next_key calls
return 2 ^ 64 - 1 and then 0, because AtomicU64::fetch_add wraps on
overflow; the later key is not strictly greater than the earlier one. -/
theorem counter_monotonic_counterexample :
    Counter.keyAt (U64LIMIT - 1) 0 = U64LIMIT - 1 ∧
    Counter.keyAt (U64LIMIT - 1) 1 = 0 ∧
    ¬ Counter.keyAt (U64LIMIT - 1) 0 < Counter.keyAt (U64LIMIT - 1) 1 := by
  refine ⟨?_, ?_, ?_⟩ <;> decide

/-- C8 (amended): within one process lifetime the Counter's next_key is
strictly monotonic and never reuses a key, for every pair of successive
calls on the same generator instance, provided the u64 counter does not
wrap around: the later call returns a key strictly greater than (and in
particular distinct from) the earlier one. -/
theorem counter_monotonic_amended (c n : Nat) (h : c + n + 1 < U64LIMIT) :
    Counter.keyAt c n < Counter.keyAt c (n + 1) ∧
    Counter.keyAt c n ≠ Counter.keyAt c (n + 1) := by
  rw [Counter.keyAt_eq c n (by omega), Counter.keyAt_eq c (n + 1) (by omega)]
  omega

/-- Witness for the amended C8 at counter state 41, calls 2 and 3. -/
theorem counter_monotonic_amended_witness :
    Counter.keyAt 41 2 < Counter.keyAt 41 3 ∧ Counter.keyAt 41 2 ≠ Counter.keyAt 41 3 :=
  counter_monotonic_amended 41 2 (by decide)

/-- C9 counterexample: at counter state 2 ^ 64 - 1 a failed insert draws
and permanently consumes key 2 ^ 64 - 1 (reported to no caller), the
counter wraps to 0, and the subsequent successful insert returns key 0,
which is not strictly larger than the consumed key. -/
theorem keygen_insert_counterexample :
    (KeyGeneratingTree.insert codecU64 true (U64LIMIT - 1) [] 7).1 = Except.error () ∧
    (KeyGeneratingTree.insert codecU64 true (U64LIMIT - 1) [] 7).2.1 = 0 ∧
    (Counter.next_key (U64LIMIT - 1)).1 = U64LIMIT - 1 ∧
    (KeyGeneratingTree.insert codecU64 false 0 [] 8).1 = Except.ok (0, none) ∧
    ¬ U64LIMIT - 1 < 0 := by
  refine ⟨rfl, ?_, ?_, rfl, ?_⟩ <;> decide

/-- C9 (amended): KeyGeneratingTree::insert draws the key from the
generator before the underlying typed insert; when the engine insert
fails, the call returns the bare engine error (the drawn key is never
reported), the counter stays advanced rather than rolled back, so the key
is permanently consumed, and a later successful insert returns the next
key, strictly larger whenever the counter does not wrap. -/
theorem keygen_insert_error_amended (V : Type) (cV : Codec V) (c : Nat) (s : ByteMap) (v w : V)
    (h : c + 1 < U64LIMIT) :
    (KeyGeneratingTree.insert cV true c s v).1 = Except.error () ∧
    (KeyGeneratingTree.insert cV true c s v).2 = (c + 1, s) ∧
    (KeyGeneratingTree.insert cV false ((KeyGeneratingTree.insert cV true c s v).2.1) s w).1 =
      Except.ok (c + 1, (mapGet s (codecU64.ser (c + 1))).bind cV.de) ∧
    c < c + 1 := by
  have hc : c < U64LIMIT := by omega
  have h1 : (c + 1) % U64LIMIT = c + 1 := Nat.mod_eq_of_lt h
  refine ⟨rfl, ?_, ?_, by omega⟩
  · simp [KeyGeneratingTree.insert, Counter.next_key, fetch_add_one, h1]
  · simp [KeyGeneratingTree.insert, Counter.next_key, fetch_add_one, h1, Nat.mod_eq_of_lt hc]

/-- Witness for the amended C9 at counter state 5 on the empty tree. -/
theorem keygen_insert_error_amended_witness :
    (KeyGeneratingTree.insert codecU64 true 5 [] 1).1 = Except.error () ∧
    (KeyGeneratingTree.insert codecU64 true 5 [] 1).2 = (6, []) ∧
    (KeyGeneratingTree.insert codecU64 false
        ((KeyGeneratingTree.insert codecU64 true 5 [] 1).2.1) [] 2).1 =
      Except.ok (6, (mapGet [] (codecU64.ser 6)).bind codecU64.de) ∧
    5 < 6 :=
  keygen_insert_error_amended Nat codecU64 5 [] 1 2 (by decide)

/-- The concrete Counter scenario of the spec: first insert on a freshly
opened empty collection. -/
def c2Ins1 : Except Unit (Nat × Option Nat) × (Nat × ByteMap) :=
  CounterTree.insert codecU64 (CounterTree.openCounter []) [] 5

/-- Second insert of the scenario. -/
def c2Ins2 : Except Unit (Nat × Option Nat) × (Nat × ByteMap) :=
  CounterTree.insert codecU64 c2Ins1.2.1 c2Ins1.2.2 6

/-- The counter state after reopening the persisted collection. -/
def c2Reopen : Nat :=
  CounterTree.openCounter c2Ins2.2.2

/-- Third insert of the scenario, after the reopen. -/
def c2Ins3 : Except Unit (Nat × Option Nat) × (Nat × ByteMap) :=
  CounterTree.insert codecU64 c2Reopen c2Ins2.2.2 7

/-- A collection holding the numeric keys 1 and 256, written through the
typed insert: the bincode little-endian encoding of 256 is byte-order
smaller than that of 1. -/
def c2BigStore : ByteMap :=
  (TypedSled.Tree.insert codecU64 codecU64
    (TypedSled.Tree.insert codecU64 codecU64 [] 1 10).2 256 20).2

/-- C2 counterexample: on a collection storing keys 1 and 256, the
Counter seeds from the byte-order-last key, which decodes to 1 (bincode
integers are little-endian, so the encoding of 256 sorts before that of
1), hence the seed is 2 and the first generated key is 2, which is not
strictly greater than the stored key 256. -/
theorem counter_resume_counterexample :
    CounterTree.get codecU64 c2BigStore 256 = some 20 ∧
    CounterTree.openCounter c2BigStore = 2 ∧
    (Counter.next_key (CounterTree.openCounter c2BigStore)).1 = 2 ∧
    ¬ 256 < (Counter.next_key (CounterTree.openCounter c2BigStore)).1 := by
  refine ⟨?_, ?_, ?_, ?_⟩ <;> decide

/-- C2 (amended): Counter initialization reads the byte-order-last key of
the collection and seeds that key plus one, or 0 on an empty collection.
The concrete scenario holds: on an empty collection insert(5) then
insert(6) return keys 0 then 1 with get(0)=5 and get(1)=6, and after
reopening, insert(7) yields key 2.  The resumption guarantee - every
subsequently generated key strictly greater than every key previously
stored - holds when the stored keys' encodings sort in their numeric
order, for instance when every stored key is below 256, and the counter
does not wrap; by the counterexample it fails for larger mixed keys. -/
theorem counter_resume_amended :
    (c2Ins1.1 = Except.ok (0, none) ∧
     c2Ins2.1 = Except.ok (1, none) ∧
     CounterTree.get codecU64 c2Ins2.2.2 0 = some 5 ∧
     CounterTree.get codecU64 c2Ins2.2.2 1 = some 6 ∧
     c2Ins3.1 = Except.ok (2, none)) ∧
    (∀ s : ByteMap, StoreSorted s →
      (∀ q ∈ s, ∃ j, j < 256 ∧ q.1 = codecU64.ser j) →
      ∀ p ∈ s, ∀ k : Nat, p.1 = codecU64.ser k → k < 256 →
        ∀ n : Nat, CounterTree.openCounter s + n < U64LIMIT →
          k < Counter.keyAt (CounterTree.openCounter s) n) := by
  constructor
  · exact ⟨rfl, rfl, by decide, by decide, rfl⟩
  · intro s hsort hsmall p hp k hpk hk n hn
    obtain ⟨b, hb, hab⟩ := pairwise_mem_getLast _ s p hsort hp
    obtain ⟨m, hm, hbm⟩ := hsmall b (getLast?_mem_of_eq_some s b hb)
    have hm64 : m < 2 ^ 64 := lt_of_lt_of_le hm (by norm_num)
    have hmL : m + 1 < U64LIMIT := by
      simp only [U64LIMIT]
      omega
    have hlast : TypedSled.Tree.last_key codecU64 s = some m := by
      simp [TypedSled.Tree.last_key, hb, hbm, codecU64_roundtrip m hm64]
    have hopen : CounterTree.openCounter s = m + 1 := by
      simp [CounterTree.openCounter, Counter.initCounter, hlast, Nat.mod_eq_of_lt hmL]
    have hkm : k ≤ m := by
      rcases hab with heq | hlt
      · have hser : codecU64.ser k = codecU64.ser m := by
          rw [← hpk, heq, hbm]
        rw [codecU64_ser_small k hk, codecU64_ser_small m hm] at hser
        simp only [List.cons.injEq] at hser
        omega
      · rw [hpk, hbm] at hlt
        exact Nat.le_of_lt ((lexLt_ser_small k m hk hm).mp hlt)
    rw [hopen] at hn ⊢
    rw [Counter.keyAt_eq (m + 1) n hn]
    omega

/-- Witness for the amended C2: a singleton collection holding key 3
reseeds to 4, whose first generated key exceeds 3. -/
theorem counter_resume_amended_witness :
    3 < Counter.keyAt (CounterTree.openCounter [(codecU64.ser 3, [])]) 0 := by
  have hsmall : ∀ q ∈ [(codecU64.ser 3, ([] : Bytes))], ∃ j, j < 256 ∧ q.1 = codecU64.ser j := by
    intro q hq
    have hq2 : q = (codecU64.ser 3, ([] : Bytes)) := by simpa using hq
    exact ⟨3, by omega, by rw [hq2]⟩
  exact counter_resume_amended.2 [(codecU64.ser 3, [])] (by decide) hsmall
    (codecU64.ser 3, []) (by simp) 3 rfl (by omega) 0 (by decide)

/-- C4: for a collection storing value v at key k, compare_and_swap with a
wrong expected value e returns, inside the Ok arm, the distinguished
mismatch result carrying current = some v and proposed = some p and leaves
the stored value untouched; a subsequent compare_and_swap expecting v
succeeds, after which get returns p. -/
theorem cas_spec (s : ByteMap) (k v e p : Nat)
    (hk : k < 2 ^ 32) (hv : v < 2 ^ 32) (he : e < 2 ^ 32) (hp : p < 2 ^ 32)
    (hs : mapGet s (codecU32.ser k) = some (codecU32.ser v)) (hne : e ≠ v) :
    TypedSled.Tree.compare_and_swap codecU32 codecU32 s k (some e) (some p) =
      (Except.error ⟨some v, some p⟩, s) ∧
    TypedSled.Tree.get codecU32 codecU32 s k = some v ∧
    (TypedSled.Tree.compare_and_swap codecU32 codecU32 s k (some v) (some p)).1 =
      Except.ok () ∧
    TypedSled.Tree.get codecU32 codecU32
      (TypedSled.Tree.compare_and_swap codecU32 codecU32 s k (some v) (some p)).2 k =
      some p := by
  have hcond : ¬ mapGet s (codecU32.ser k) = Option.map codecU32.ser (some e) := by
    rw [hs, Option.map_some']
    intro hcontra
    exact hne (codecU32_ser_inj v e hv he ((Option.some.injEq _ _).mp hcontra)).symm
  have hcond2 : mapGet s (codecU32.ser k) = Option.map codecU32.ser (some v) := by
    rw [hs, Option.map_some']
  refine ⟨?_, ?_, ?_, ?_⟩
  · simp only [TypedSled.Tree.compare_and_swap, if_neg hcond]
    rw [hs]
    simp [codecU32_roundtrip v hv]
  · simp [TypedSled.Tree.get, hs, codecU32_roundtrip v hv]
  · simp only [TypedSled.Tree.compare_and_swap, if_pos hcond2]
  · simp only [TypedSled.Tree.compare_and_swap, if_pos hcond2, TypedSled.Tree.get,
      mapGet_mapInsert_self]
    simp [codecU32_roundtrip p hp]

/-- Witness for C4, matching the test_cas scenario of src/lib.rs lines
240-262: key 1 holds 2; cas(1, some 3, some 4) mismatches with current 2
and proposed 4; cas(1, some 2, some 4) succeeds and get yields 4. -/
theorem cas_spec_witness :
    TypedSled.Tree.compare_and_swap codecU32 codecU32 [(codecU32.ser 1, codecU32.ser 2)] 1
        (some 3) (some 4) =
      (Except.error ⟨some 2, some 4⟩, [(codecU32.ser 1, codecU32.ser 2)]) ∧
    TypedSled.Tree.get codecU32 codecU32
      (TypedSled.Tree.compare_and_swap codecU32 codecU32 [(codecU32.ser 1, codecU32.ser 2)] 1
        (some 2) (some 4)).2 1 = some 4 := by
  have h := cas_spec [(codecU32.ser 1, codecU32.ser 2)] 1 2 3 4
    (by norm_num) (by norm_num) (by norm_num) (by norm_num) (by decide) (by decide)
  exact ⟨h.1, h.2.2.2⟩

/-- The concrete store of the range scenario: the keys 1, 3, 6, 10 and 15
inserted through the typed insert with u32 keys and values, as in
test_range of src/lib.rs lines 219-238. -/
def c5Store : ByteMap :=
  ([(1, 2), (3, 4), (6, 2), (10, 2), (15, 2)] : List (Nat × Nat)).foldl
    (fun s kv => (TypedSled.Tree.insert codecU32 codecU32 s kv.1 kv.2).2) []

/-- C5: with the fixed-width integer key strategy, after inserting exactly
the keys 1, 3, 6, 10, 15, range(6..11) yields exactly the pairs (6, v6)
and (10, v10) in ascending order; in general the range selection of any
sorted store is ordered ascending by the byte order of the encoded keys
and bounded by the encoded endpoints (start inclusive, end exclusive). -/
theorem range_spec :
    (TypedSled.Tree.range codecU32 codecU32 c5Store 6 11 = [some (6, 2), some (10, 2)]) ∧
    (∀ (s : ByteMap) (lo hi : Nat), StoreSorted s →
      List.Pairwise (fun a b : Bytes × Bytes => lexLt a.1 b.1 = true)
        (TypedSled.Tree.rangeBytes codecU32 s lo hi) ∧
      ∀ p ∈ TypedSled.Tree.rangeBytes codecU32 s lo hi,
        lexLt p.1 (codecU32.ser lo) = false ∧ lexLt p.1 (codecU32.ser hi) = true) := by
  constructor
  · decide
  · intro s lo hi hsort
    constructor
    · exact List.Pairwise.filter _ hsort
    · intro p hp
      rw [TypedSled.Tree.rangeBytes, List.mem_filter] at hp
      have h2 := hp.2
      simp only [Bool.and_eq_true, Bool.not_eq_true'] at h2
      exact h2

/-- Witness for C5: the entry for key 6 of the concrete store lies within
the encoded bounds of range(6..11). -/
theorem range_spec_witness :
    lexLt (codecU32.ser 6) (codecU32.ser 6) = false ∧
    lexLt (codecU32.ser 6) (codecU32.ser 11) = true :=
  (range_spec.2 c5Store 6 11 (by decide)).2 (codecU32.ser 6, codecU32.ser 2) (by decide)

/-- C3: for every tuple of 1 up to 10 independently typed collections,
transaction runs the closure with a tuple of typed views of the same
arity and order, the i-th view pairing the i-th engine handle with the
i-th originating typed collection (its name and both Strategy
dictionaries); an insert through the i-th view therefore updates exactly
the i-th collection, encoded with its own Strategy, leaving every other
collection of the store untouched. -/
theorem transaction_view_pairing (n : Nat) (h1 : 1 ≤ n) (h10 : n ≤ 10)
    (sigs : Fin n → Sig) (trees : (i : Fin n) → TypedTree (sigs i))
    (i : Fin n) (k : (sigs i).K) (v : (sigs i).V) (s : EngineStore) :
    (∀ j : Fin n,
      (viewOf (trees j) ((trees j).name)).handle = (trees j).name ∧
      (viewOf (trees j) ((trees j).name)).cK = (trees j).cK ∧
      (viewOf (trees j) ((trees j).name)).cV = (trees j).cV) ∧
    transactionTuple n sigs trees (fun views => (views i).insert k v) s =
      (Except.ok ((mapGet (engineGetTree s (trees i).name) ((trees i).cK.ser k)).bind
          (trees i).cV.de),
        engineSetTree s (trees i).name
          (mapInsert (engineGetTree s (trees i).name) ((trees i).cK.ser k)
            ((trees i).cV.ser v))) ∧
    (∀ name2 : Nat, name2 ≠ (trees i).name →
      engineGetTree (transactionTuple n sigs trees (fun views => (views i).insert k v) s).2
          name2 =
        engineGetTree s name2) := by
  refine ⟨fun j => ⟨rfl, rfl, rfl⟩, rfl, fun name2 hne => ?_⟩
  exact engineGetTree_engineSetTree_ne s (trees i).name name2 _ hne

/-- Witness for C3 at arity 3: an insert through the middle view of three
Nat-typed collections named 0, 1, 2 writes exactly to collection 1. -/
theorem transaction_view_pairing_witness :
    transactionTuple 3 (fun _ => ⟨Nat, Nat⟩) (fun i2 => ⟨i2.val, codecU64, codecU64⟩)
      (fun views => (views 1).insert 4 9) [] =
      (Except.ok none, [(1, [(codecU64.ser 4, codecU64.ser 9)])]) := by
  have h := (transaction_view_pairing 3 (by norm_num) (by norm_num) (fun _ => ⟨Nat, Nat⟩)
    (fun i2 => ⟨i2.val, codecU64, codecU64⟩) 1 4 9 []).2.1
  exact h.trans (by rfl)

/-- C6: the join get returns nothing when the key is absent from the
source collection; when the source value is present it returns that value
paired with the hits for exactly those extracted destination keys present
in the destination, in extraction order, an extracted key missing from
the destination being silently skipped without an error. -/
theorem join_get_spec (K V DK DV : Type) (cKs : Codec K) (cVs : Codec V) (cKd : Codec DK)
    (cVd : Codec DV) (src dest : ByteMap) (extract : V → List DK) (k : K) :
    (mapGet src (cKs.ser k) = none →
      JoinTree.get cKs cVs cKd cVd src dest extract k = none) ∧
    (∀ bs v, mapGet src (cKs.ser k) = some bs → cVs.de bs = some v →
      JoinTree.get cKs cVs cKd cVd src dest extract k =
        some (v, (extract v).filterMap (joinHit cKd cVd dest))) := by
  constructor
  · intro h
    simp [JoinTree.get, h]
  · intro bs v hbs hv
    simp [JoinTree.get, hbs, hv, joinResolve_eq_filterMap]

/-- The source collection for the concrete join scenario: key 1 holds the
value 10. -/
def c6Src : ByteMap := (TypedSled.Tree.insert codecU64 codecU64 [] 1 10).2

/-- The destination collection for the concrete join scenario: key 10 is
present with value 99, key 11 is absent. -/
def c6Dest : ByteMap := (TypedSled.Tree.insert codecU64 codecU64 [] 10 99).2

/-- Witness for C6: a source value extracting the destination keys 10 and
11, with 11 absent from the destination, resolves to exactly the one pair
for 10 and raises no error for the missing 11. -/
theorem join_get_spec_witness :
    JoinTree.get codecU64 codecU64 codecU64 codecU64 c6Src c6Dest (fun v => [v, v + 1]) 1 =
      some (10, [(10, 99)]) := by
  have h := (join_get_spec Nat Nat Nat Nat codecU64 codecU64 codecU64 codecU64 c6Src c6Dest
    (fun v => [v, v + 1]) 1).2 (codecU64.ser 10) 10 (by decide) (by decide)
  exact h.trans (by decide)
